import Mathlib

/-!
Verification of the filename-driven channel resolution engine of
`channel_merge.py` (repository `junckerlab/channel-merge`).

Strings are embedded as `List Char` so that the Python string operations
used by the source (`split`, `join`, `replace`, slicing, `in`) can be
modelled with explicit, executable recursive functions carrying the same
semantics as CPython's (non-overlapping leftmost splitting, code-point
comparison for sorting, and so on).  Filesystem state is an association
list from names to abstract content tokens; `os.rename` is modelled with
POSIX semantics (an existing destination is silently replaced), which is
also what the module docstring of the source describes ("will clobber the
file above").  Exceptions raised by the Python code (`IndexError`,
`ValueError`) are modelled with `Option`/`Except` results.
-/

namespace ChannelMerge

/-- Strings modelled as lists of characters. -/
abbrev Str := List Char

/-! ## Python string primitives -/

/-- Boolean test that `p` starts the list `s` (models Python `s.startswith(p)`
and is the building block of substring search). -/
def isPfx : Str → Str → Bool
  | [], _ => true
  | _ :: _, [] => false
  | a :: as, b :: bs => a == b && isPfx as bs

/-- Boolean substring containment, models Python `p in s`. -/
def isSub (p : Str) : Str → Bool
  | [] => isPfx p []
  | c :: cs => isPfx p (c :: cs) || isSub p cs

/-- Split on a single character, models Python `s.split(c)` for a
one-character separator: `splitChar '-' "a-b" = ["a", "b"]`. -/
def splitChar (c : Char) : Str → List Str
  | [] => [[]]
  | a :: as =>
    match splitChar c as with
    | [] => [[]]
    | p :: ps => if a == c then [] :: p :: ps else (a :: p) :: ps

/-- Fuel-driven worker for `pySplit`; the fuel only needs to exceed the
length of the input, and `pySplit` supplies it, so the fuel-exhausted
branch is never reached. -/
def pySplitF : Nat → Str → Str → List Str
  | 0, _, s => [s]
  | fuel + 1, sep, s =>
    if sep.isEmpty then [s]
    else if isPfx sep s then [] :: pySplitF fuel sep (s.drop sep.length)
    else
      match s with
      | [] => [[]]
      | a :: as =>
        match pySplitF fuel sep as with
        | [] => [[a]]
        | p :: ps => (a :: p) :: ps

/-- Split on a (non-empty, possibly multi-character) separator, models
Python `s.split(sep)`: non-overlapping, leftmost-first occurrences. -/
def pySplit (sep s : Str) : List Str := pySplitF (s.length + 1) sep s

/-- Models Python `sep.join(parts)`. -/
def pyJoin (sep : Str) : List Str → Str
  | [] => []
  | [x] => x
  | x :: y :: ys => x ++ sep ++ pyJoin sep (y :: ys)

/-- Maximal run of decimal digits at the end of a string; models the match
of the regex `\d+$` (empty when the regex does not match). -/
def trailingDigits (s : Str) : Str := (s.reverse.takeWhile Char.isDigit).reverse

/-- Models Python `s.isdigit()` on ASCII data: non-empty and all digits. -/
def pyIsDigit (s : Str) : Bool := !s.isEmpty && s.all Char.isDigit

/-- Whitespace tokenisation, models Python `s.split()` with no argument:
maximal non-whitespace runs, empty tokens discarded. -/
def wsTokens : Str → List Str
  | [] => []
  | [c] => if c.isWhitespace then [] else [[c]]
  | c :: d :: rest =>
    if c.isWhitespace then wsTokens (d :: rest)
    else if d.isWhitespace then [c] :: wsTokens rest
    else
      match wsTokens (d :: rest) with
      | [] => [[c]]
      | t :: ts => (c :: t) :: ts

/-- Strict code-point lexicographic comparison of strings; models CPython
string `<`. -/
def strLt : Str → Str → Bool
  | [], [] => false
  | [], _ :: _ => true
  | _ :: _, [] => false
  | a :: as, b :: bs => if a == b then strLt as bs else decide (a < b)

/-- Non-strict string comparison used as the sorting relation. -/
def strLe (a b : Str) : Bool := !strLt b a

/-- Strict lexicographic comparison of lists of strings; models CPython
comparison of lists whose elements are strings. -/
def llLt : List Str → List Str → Bool
  | [], [] => false
  | [], _ :: _ => true
  | _ :: _, [] => false
  | a :: as, b :: bs => if a == b then llLt as bs else strLt a b

/-- Non-strict list-of-strings comparison. -/
def llLe (a b : List Str) : Bool := !llLt b a

/-- Models Python `sorted(l)` / `l.sort()` on strings (stable mergesort
with code-point order). -/
def pySort (l : List Str) : List Str := l.mergeSort strLe

/-- Models Python `sorted(l, reverse=True)` on strings. -/
def pySortRev (l : List Str) : List Str := l.mergeSort (fun a b => strLe b a)

/-- Models Python `l.sort()` on a list of lists of strings. -/
def pySortLL (l : List (List Str)) : List (List Str) := l.mergeSort llLe

/-- Decimal rendering of a natural number, models Python `str(n)`. -/
def natStr (n : Nat) : Str := Nat.toDigits 10 n

/-! ## Filesystem model

The store is an association list from filename to an abstract content
token.  `os.rename` follows POSIX semantics: it fails when the source
name does not exist, and it silently replaces the destination when the
destination name already exists (the module docstring of the source makes
the same assumption: "will clobber the file above"). -/

abbrev Fs := List (Str × Nat)

/-- Content stored under a name, if any. -/
def fsGet : Fs → Str → Option Nat
  | [], _ => none
  | (m, v) :: rest, n => if m = n then some v else fsGet rest n

/-- Remove every entry stored under a name. -/
def fsErase : Fs → Str → Fs
  | [], _ => []
  | (m, v) :: rest, n => if m = n then fsErase rest n else (m, v) :: fsErase rest n

/-- Store content under a name, replacing any previous entry. -/
def fsSet (fs : Fs) (n : Str) (v : Nat) : Fs := (n, v) :: fsErase fs n

/-- Models `os.rename(old, new)` with POSIX semantics; `none` models the
`OSError` raised when the source does not exist. -/
def osRename (fs : Fs) (old new : Str) : Option Fs :=
  match fsGet fs old with
  | none => none
  | some v => some (fsSet (fsErase fs old) new v)

/-- Sequential rename loop of `cleanup_filenames.rename`:
`for old, new in zip(filenames, format_filenames(filenames)): os.rename(old, new)`. -/
def renameAll (fs : Fs) : List (Str × Str) → Option Fs
  | [] => some fs
  | (o, n) :: rest =>
    match osRename fs o n with
    | none => none
    | some fs2 => renameAll fs2 rest

/-! ## Filename normalizer (`format_trailing_nums`, `format_filenames`) -/

/-- Direct embedding of `format_trailing_nums` from the source.  The
`Option` result models the `IndexError` raised by `new[-1]` when `new`
is empty (which happens when the name without its extension is a pure
digit run). -/
def format_trailing_nums (s : Str) : Option Str :=
  let sp := pyJoin ['.'] ((splitChar '.' s).dropLast)
  let endnum := trailingDigits sp
  let step1 : Option Str :=
    if endnum.isEmpty then some s
    else
      let new1 := pyJoin endnum ((pySplit endnum sp).dropLast)
      match new1.getLast? with
      | none => none
      | some c =>
        let new2 := if c == '-' then new1.dropLast else new1
        let ext := '.' :: ((splitChar '.' s).getLastD [])
        some (new2 ++ '-' :: endnum ++ ext)
  match step1 with
  | none => none
  | some new =>
    let pfx := (splitChar '-' new).headD []
    if pyIsDigit pfx then some new
    else
      let lead := pfx.takeWhile Char.isDigit
      if lead.isEmpty then some new
      else
        let mid := pyJoin [] (pySplit lead pfx)
        let rest := pyJoin ['-'] ((splitChar '-' new).tail)
        some (lead ++ '-' :: mid ++ '-' :: rest)

/-- Per-name normalization performed by `format_filenames`: fold
whitespace runs into `-` (`'-'.join(f.split())`), then
`format_trailing_nums`. -/
def normalizeName (f : Str) : Option Str :=
  format_trailing_nums (pyJoin ['-'] (wsTokens f))

/-- Embedding of `format_filenames`: normalize every name (an exception
while normalizing any name aborts the whole pass). -/
def format_filenames : List Str → Option (List Str)
  | [] => some []
  | f :: fs =>
    match normalizeName f, format_filenames fs with
    | some n, some ns => some (n :: ns)
    | _, _ => none

/-- Brightfield pattern `-bf` used by the filter in `cleanup_filenames`. -/
def bfPat : Str := ['-', 'b', 'f']

/-- Filter-and-sort tail of `cleanup_filenames`:
`filenames = [f for f in filenames if '-bf' not in f]; filenames.sort()`. -/
def bf_filter (names : List Str) : List Str :=
  pySort (names.filter (fun f => !isSub bfPat f))

/-- Embedding of `cleanup_filenames`: rename every file on the store to
its normalized name (sequentially, in input order), then filter the
brightfield names out of the ORIGINAL list (this is what the source does:
the list comprehension runs over the untouched `filenames` argument) and
sort it.  `none` models an uncaught exception in the rename phase. -/
def cleanup_filenames (fs : Fs) (filenames : List Str) : Option (List Str × Fs) :=
  match format_filenames filenames with
  | none => none
  | some news =>
    match renameAll fs (filenames.zip news) with
    | none => none
    | some fs2 => some (bf_filter filenames, fs2)

/-! ## Image grouper (`group_images`) -/

/-- Direct embedding of `group_images`: collect the distinct first
`-`-tokens, sort them, bucket the filenames by SUBSTRING containment of
`num + "-"` (the source's known-buggy membership test `n+'-' in f`), sort
the list of buckets (`channels.sort()`), and zip into a mapping. -/
def group_images (filenames : List Str) : List (Str × List Str) :=
  let nums := ((filenames.map (fun f => (splitChar '-' f).headD [])).dedup).mergeSort strLe
  let channels := nums.map (fun n => filenames.filter (fun f => isSub (n ++ ['-']) f))
  nums.zip (pySortLL channels)

/-! ## Channel classifier and combination generator (`channel_combos`) -/

/-- First letter, lower-cased, of the token following the first `-`:
models `f.split('-')[1].lower()[0]`.  `none` models the `IndexError`
raised when there is no second token or the second token is empty. -/
def classify (f : Str) : Option Char :=
  match splitChar '-' f with
  | _ :: t :: _ => (t.map Char.toLower).head?
  | _ => none

/-- Bucket-building loop of `channel_combos`: walk the files in order,
appending each to the `r`/`g`/`b` bucket selected by its classification
letter (any other letter falls through every branch and is dropped); the
first unclassifiable file aborts the loop, modelling the uncaught
`IndexError`. -/
def colorsFold : List Str → List Str × List Str × List Str →
    Except Str (List Str × List Str × List Str)
  | [], acc => .ok acc
  | f :: fs, (r, g, b) =>
    match classify f with
    | none => .error f
    | some c =>
      if c == 'r' then colorsFold fs (r ++ [f], g, b)
      else if c == 'g' then colorsFold fs (r, g ++ [f], b)
      else if c == 'b' then colorsFold fs (r, g, b ++ [f])
      else colorsFold fs (r, g, b)

/-- Cartesian product of a list of lists, models
`itertools.product(*lists)` (rightmost factor varies fastest). -/
def prodL : List (List α) → List (List α)
  | [] => [[]]
  | l :: ls => l.flatMap (fun x => (prodL ls).map (fun t => x :: t))

/-- Direct embedding of `channel_combos`: bucket by colour letter, take
the cartesian product of the three buckets, and sort each product tuple
in reverse code-point order of the full filename
(`sorted(t, reverse=True)`).  The bucket order `r, g, b` fixes the
(deterministic but implementation-defined) CPython dict iteration order;
no theorem below depends on that order. -/
def channel_combos (files : List Str) : Except Str (List (List Str)) :=
  match colorsFold files ([], [], []) with
  | .error f => .error f
  | .ok (r, g, b) => .ok ((prodL [r, g, b]).map pySortRev)

/-- Files whose classification letter is `r` (the contents of the red
bucket built by `channel_combos`, in input order). -/
def rFiles (files : List Str) : List Str :=
  files.filter (fun f => classify f == some 'r')

/-- Files whose classification letter is `g`. -/
def gFiles (files : List Str) : List Str :=
  files.filter (fun f => classify f == some 'g')

/-- Files whose classification letter is `b`. -/
def bFiles (files : List Str) : List Str :=
  files.filter (fun f => classify f == some 'b')

/-! ## Combination keys (`get_uids`) -/

/-- Direct embedding of `get_uids` over an association-list mapping from
image number to its list of combinations.  In the source the
`type(imls[0]) is list` test distinguishes a single combination (a list)
from a degenerate flat entry; in this typed embedding the entries of
`imls` are always lists, so that branch is always taken. -/
def get_uids (imgs : List (Str × List (List Str))) : List (Str × List Str) :=
  imgs.flatMap (fun e =>
    if e.2.length = 1 then [(e.1, e.2.headD [])]
    else if 1 < e.2.length then
      (e.1, e.2.headD []) ::
        (List.range (e.2.length - 1)).map
          (fun i => (e.1 ++ '-' :: natStr (i + 2), e.2.getD (i + 1) []))
    else [])

/-! ## Preprocessing loop (`preproc_imgs`)

Arrays carry their shape and an abstract payload.  The numerical
externals (`scipy.ndimage.gaussian_filter`, `cv2.subtract`, `cv2.divide`)
all return an array of the input's shape, so the per-channel illumination
correction is abstracted as an arbitrary shape-preserving map, and
`tiffread` as an arbitrary decoding map from names to arrays.
`np.dstack` succeeds exactly when all planes share a shape; its
`ValueError` on mismatch is the `Option.none` branch, which the source
catches to skip the combination and print a diagnostic naming the
combination key and each plane's shape. -/

structure Arr where
  rows : Nat
  cols : Nat
  data : List Nat
deriving DecidableEq

/-- Shape of a single-plane array. -/
def shape (a : Arr) : Nat × Nat := (a.rows, a.cols)

structure Arr3 where
  rows : Nat
  cols : Nat
  planes : Nat
deriving DecidableEq

/-- Models `np.dstack` on a list of single-plane arrays: a stacked array
when every plane has the same shape, `none` (the `ValueError`) otherwise. -/
def np_dstack (l : List Arr) : Option Arr3 :=
  match l with
  | [] => none
  | a :: rest =>
    if rest.all (fun x => decide (shape x = shape a)) then some ⟨a.rows, a.cols, l.length⟩
    else none

/-- One iteration of the `preproc_imgs` loop body: read and correct each
plane of the combination, try to stack; on success append the stacked
image to the result mapping, on the `ValueError` append a diagnostic
record `(uid, plane shapes)` and continue. -/
def preprocStep (illum : Arr → Arr) (readImg : Str → Arr)
    (acc : List (Str × Arr3) × List (Str × List (Nat × Nat)))
    (e : Str × List Str) :
    List (Str × Arr3) × List (Str × List (Nat × Nat)) :=
  let ims_corr := e.2.map (fun f => illum (readImg f))
  match np_dstack ims_corr with
  | some stacked => (acc.1 ++ [(e.1, stacked)], acc.2)
  | none => (acc.1, acc.2 ++ [(e.1, ims_corr.map shape)])

/-- Direct embedding of the main loop of `preproc_imgs`: fold the loop
body over the combinations.  Returns the mapping of surviving
combinations and the list of skip diagnostics. -/
def preproc_imgs (illum : Arr → Arr) (readImg : Str → Arr)
    (uids : List (Str × List Str)) :
    List (Str × Arr3) × List (Str × List (Nat × Nat)) :=
  uids.foldl (preprocStep illum readImg) ([], [])

/-- Per-entry contribution of one combination to the result mapping. -/
def preprocOut (illum : Arr → Arr) (readImg : Str → Arr) (e : Str × List Str) :
    List (Str × Arr3) :=
  match np_dstack (e.2.map (fun f => illum (readImg f))) with
  | some stacked => [(e.1, stacked)]
  | none => []

/-- Per-entry contribution of one combination to the diagnostics. -/
def preprocDiag (illum : Arr → Arr) (readImg : Str → Arr) (e : Str × List Str) :
    List (Str × List (Nat × Nat)) :=
  match np_dstack (e.2.map (fun f => illum (readImg f))) with
  | some _ => []
  | none => [(e.1, (e.2.map (fun f => illum (readImg f))).map shape)]

/-! ## Canonical filenames

The canonical form `<id>-<channel-token>[-<scan>].<ext>` of the spec:
`id` a non-empty digit string, `channel-token` a non-empty token free of
`-`, `.` and whitespace, `scan` an optional non-empty digit string, and
`ext` a non-empty extension free of `.` and whitespace.  The spec's
invariant that a trailing numeral is always its own `-`-delimited token
means that, when there is no scan suffix, the token does not end in a
digit. -/

/-- Scan-suffix fragment of a canonical name: empty, or `-` followed by
the scan number. -/
def scanPart : Option Str → Str
  | none => []
  | some n => '-' :: n

/-- Constraint tying the channel token and the optional scan suffix:
without a scan the token must not end in a digit (else the trailing
numeral would not be `-`-delimited); a scan is a non-empty digit run. -/
def scanOk (tok : Str) : Option Str → Prop
  | none => tok.getLast?.all (fun c => !c.isDigit) = true
  | some n => n ≠ [] ∧ n.all Char.isDigit = true

/-- Constraints on the four components of a canonical name. -/
def CanonicalParts (idStr tok : Str) (scan : Option Str) (ext : Str) : Prop :=
  idStr ≠ [] ∧ idStr.all Char.isDigit = true ∧
  tok ≠ [] ∧ tok.all (fun c => !(c == '-') && !(c == '.') && !c.isWhitespace) = true ∧
  scanOk tok scan ∧
  ext ≠ [] ∧ ext.all (fun c => !(c == '.') && !c.isWhitespace) = true

/-- A filename in canonical `<id>-<channel-token>[-<scan>].<ext>` form. -/
def Canonical (s : Str) : Prop :=
  ∃ idStr tok scan ext, CanonicalParts idStr tok scan ext ∧
    s = idStr ++ '-' :: (tok ++ scanPart scan ++ '.' :: ext)

/-! ## Concrete sample filenames used by closed theorems and witnesses -/

/-- The filename "1-red.tif". -/
def fn1red : Str := ['1', '-', 'r', 'e', 'd', '.', 't', 'i', 'f']

/-- The filename "101-red.tif". -/
def fn101red : Str := ['1', '0', '1', '-', 'r', 'e', 'd', '.', 't', 'i', 'f']

/-- The raw filename "01 red.tif" (with a space). -/
def fnSp : Str := ['0', '1', ' ', 'r', 'e', 'd', '.', 't', 'i', 'f']

/-- The normalized filename "01-red.tif". -/
def fnN : Str := ['0', '1', '-', 'r', 'e', 'd', '.', 't', 'i', 'f']

/-- The raw filename "01 red-3.tif" (with a space). -/
def fnSp3 : Str := ['0', '1', ' ', 'r', 'e', 'd', '-', '3', '.', 't', 'i', 'f']

/-- The normalized filename "01-red-3.tif". -/
def fnN3 : Str := ['0', '1', '-', 'r', 'e', 'd', '-', '3', '.', 't', 'i', 'f']

/-- The unclassifiable filename "01.tif" (no second `-`-token). -/
def fnBad1 : Str := ['0', '1', '.', 't', 'i', 'f']

/-- The unclassifiable filename "02.tif" (no second `-`-token). -/
def fnBad2 : Str := ['0', '2', '.', 't', 'i', 'f']

/-- The filename "03-red.tif". -/
def fnRed3 : Str := ['0', '3', '-', 'r', 'e', 'd', '.', 't', 'i', 'f']

/-- The filename "01-Red.tif" (capital channel letter, classified red). -/
def fnRCap : Str := ['0', '1', '-', 'R', 'e', 'd', '.', 't', 'i', 'f']

/-- The filename "01-green.tif". -/
def fnGreen : Str := ['0', '1', '-', 'g', 'r', 'e', 'e', 'n', '.', 't', 'i', 'f']

/-- The filename "01-blue.tif". -/
def fnBlue : Str := ['0', '1', '-', 'b', 'l', 'u', 'e', '.', 't', 'i', 'f']

/-- The filename "01-blue-2.tif". -/
def fnBlue2 : Str := ['0', '1', '-', 'b', 'l', 'u', 'e', '-', '2', '.', 't', 'i', 'f']

/-- The filename "01-yellow.tif" (classifiable but not r/g/b). -/
def fnYellow : Str := ['0', '1', '-', 'y', 'e', 'l', 'l', 'o', 'w', '.', 't', 'i', 'f']

/-- The canonical filename "01-red-2.tif". -/
def fnRed2 : Str := ['0', '1', '-', 'r', 'e', 'd', '-', '2', '.', 't', 'i', 'f']

/-- The image id "01". -/
def id01 : Str := ['0', '1']

/-! ## Theorems -/

unseal List.merge List.mergeSort

/-- C1.  The claim states that grouping assigns a filename to a group if
and only if the token before the first `-` equals the group id exactly,
so that a file with id `101` is never placed in the group for id `1`.
The source's `group_images` instead tests `n+'-' in f` (substring
containment) — an issue its own docstring records with a TODO — and on
the directory `{1-red.tif, 101-red.tif}` it places `101-red.tif` (whose
first token is `101`, not `1`) into the group for id `1`. -/
theorem group_images_substring_bug :
    (splitChar '-' fn101red).headD [] = ['1', '0', '1'] ∧
    group_images [fn1red, fn101red] =
      [(['1'], [fn1red, fn101red]), (['1', '0', '1'], [fn101red])] := by
  constructor
  · decide
  · decide

/-- C2 counterexample.  The claim states the normalizer skips a rename
whose target name already exists, leaving the existing file's contents
unchanged.  On the store holding `01 red-3.tif` (content 1) and
`01-red-3.tif` (content 2), cleaning up both names renames the first onto
the second, so afterwards `01-red-3.tif` holds content 1: the existing
file's contents were not preserved, and the rename was not skipped. -/
theorem cleanup_rename_overwrites_counterexample :
    fsGet [(fnSp3, 1), (fnN3, 2)] fnN3 = some 2 ∧
    cleanup_filenames [(fnSp3, 1), (fnN3, 2)] [fnSp3, fnN3] =
      some ([fnSp3, fnN3], [(fnN3, 1)]) := by
  constructor
  · decide
  · decide

/-- C2 amended.  The rename performed by `cleanup_filenames` is
unconditional: whenever a file normalizes to a new name, the file is
moved there and the destination ends up holding the moved file's content
— whether or not the destination name already referred to an existing
file (in which case that file's contents are replaced, as the module
docstring itself warns). -/
theorem cleanup_rename_unconditional (fs : Fs) (f n : Str) (v : Nat)
    (hnorm : normalizeName f = some n) (hmem : fsGet fs f = some v) :
    cleanup_filenames fs [f] = some (bf_filter [f], fsSet (fsErase fs f) n v) ∧
    fsGet (fsSet (fsErase fs f) n v) n = some v := by
  constructor
  · simp [cleanup_filenames, format_filenames, hnorm, renameAll, osRename, hmem]
  · simp [fsSet, fsGet]

/-- C2 amended witness: concrete run of `cleanup_rename_unconditional`
where the destination name pre-existed with different content. -/
theorem cleanup_rename_unconditional_witness :
    (normalizeName fnSp3 = some fnN3 ∧ fsGet [(fnSp3, 1), (fnN3, 2)] fnSp3 = some 1) ∧
    (cleanup_filenames [(fnSp3, 1), (fnN3, 2)] [fnSp3] =
      some (bf_filter [fnSp3], fsSet (fsErase [(fnSp3, 1), (fnN3, 2)] fnSp3) fnN3 1) ∧
     fsGet (fsSet (fsErase [(fnSp3, 1), (fnN3, 2)] fnSp3) fnN3 1) fnN3 = some 1) :=
  ⟨⟨by decide, by decide⟩,
    cleanup_rename_unconditional [(fnSp3, 1), (fnN3, 2)] fnSp3 fnN3 1 (by decide) (by decide)⟩

/-- C3 counterexample.  The claim states that ALL filenames with no
second `-`-token are collected across the run and reported together.  On
the input `[01.tif, 02.tif, 03-red.tif]` the combination generator
aborts at the first such filename (`01.tif`, the uncaught `IndexError`),
although `02.tif` is equally unclassifiable: nothing is collected and the
report names only the first offender. -/
theorem channel_combos_fail_fast_counterexample :
    classify fnBad2 = none ∧
    channel_combos [fnBad1, fnBad2, fnRed3] = .error fnBad1 := by
  constructor
  · decide
  · rfl

/-- C3 helper: the bucket-building loop aborts at the first
unclassifiable filename, whatever the accumulator. -/
theorem colorsFold_append_error (f : Str) (ys : List Str) (hf : classify f = none) :
    ∀ (xs : List Str) (acc : List Str × List Str × List Str),
      (∀ x ∈ xs, classify x ≠ none) →
      colorsFold (xs ++ f :: ys) acc = .error f := by
  intro xs
  induction xs with
  | nil =>
    intro acc _
    obtain ⟨r, g, b⟩ := acc
    simp [colorsFold, hf]
  | cons x xs ih =>
    intro acc hxs
    obtain ⟨r, g, b⟩ := acc
    obtain ⟨c, hc⟩ := Option.ne_none_iff_exists'.mp (hxs x (by simp))
    have ih' := fun acc => ih acc (fun y hy => hxs y (by simp [hy]))
    simp only [List.cons_append, colorsFold, hc]
    split
    · exact ih' _
    · split
      · exact ih' _
      · split
        · exact ih' _
        · exact ih' _

/-- C3 amended.  When a filename with no second `-`-token is present, the
combination generator fails at the FIRST such filename in input order
(modelling the uncaught `IndexError`): later unclassifiable filenames are
neither collected nor reported. -/
theorem channel_combos_errors_on_first_unclassifiable
    (xs : List Str) (f : Str) (ys : List Str)
    (hxs : ∀ x ∈ xs, classify x ≠ none) (hf : classify f = none) :
    channel_combos (xs ++ f :: ys) = .error f := by
  have h := colorsFold_append_error f ys hf xs ([], [], []) hxs
  simp [channel_combos, h]

/-- C3 amended witness: with one classifiable file before them, the run
errors on `01.tif` and never reaches `02.tif`. -/
theorem channel_combos_errors_on_first_unclassifiable_witness :
    ((∀ x ∈ [fnRed3], classify x ≠ none) ∧ classify fnBad1 = none) ∧
    channel_combos ([fnRed3] ++ fnBad1 :: [fnBad2]) = .error fnBad1 :=
  ⟨⟨by decide, by decide⟩,
    channel_combos_errors_on_first_unclassifiable [fnRed3] fnBad1 [fnBad2]
      (by decide) (by decide)⟩

/-- C4.  The claim states that the list returned by `cleanup_filenames`
consists of the post-rename, normalized filenames.  In the source the
returned list is built from the ORIGINAL argument (`[f for f in
filenames if '-bf' not in f]`), so on the directory `{01 red.tif}` the
file is renamed on storage to `01-red.tif`, yet the returned list still
holds the stale pre-rename name `01 red.tif` — which no longer refers to
any file — instead of the normalized name. -/
theorem cleanup_returns_prerename_names :
    normalizeName fnSp = some fnN ∧ fnSp ≠ fnN ∧
    cleanup_filenames [(fnSp, 7)] [fnSp] = some ([fnSp], [(fnN, 7)]) ∧
    fsGet [(fnN, 7)] fnSp = none := by
  refine ⟨by decide, by decide, ?_, by decide⟩
  decide

/-- C5.  The claim states every product tuple is emitted in (red, green,
blue) order.  The source sorts each tuple in reverse code-point order of
the whole filename (`sorted(t, reverse=True)`); with the red channel file
`01-Red.tif` (capital `R`, code point below the lowercase letters) the
emitted tuple is `(01-green.tif, 01-blue.tif, 01-Red.tif)` — green first,
red last — contradicting both the claim and the function's own docstring
("each tuple is one combo of rgb channels sorted in order of (r,g,b)"). -/
theorem channel_combos_order_violation :
    classify fnRCap = some 'r' ∧ classify fnGreen = some 'g' ∧
    classify fnBlue = some 'b' ∧
    channel_combos [fnRCap, fnBlue, fnGreen] = .ok [[fnGreen, fnBlue, fnRCap]] := by
  refine ⟨by decide, by decide, by decide, ?_⟩
  rfl

/-- Helper: a successful run of the bucket-building loop extends each
accumulator bucket with exactly the files classified to its colour, in
input order. -/
theorem colorsFold_ok_eq (files : List Str) :
    ∀ (r g b r2 g2 b2 : List Str),
      colorsFold files (r, g, b) = .ok (r2, g2, b2) →
      r2 = r ++ rFiles files ∧ g2 = g ++ gFiles files ∧ b2 = b ++ bFiles files := by
  induction files with
  | nil =>
    intro r g b r2 g2 b2 h
    simp [colorsFold] at h
    simp [rFiles, gFiles, bFiles, h.1, h.2.1, h.2.2]
  | cons f fs ih =>
    intro r g b r2 g2 b2 h
    cases hc : classify f with
    | none => simp [colorsFold, hc] at h
    | some c =>
      simp only [colorsFold, hc] at h
      by_cases hr : c = 'r'
      · simp only [hr, beq_self_eq_true, if_true] at h
        obtain ⟨e1, e2, e3⟩ := ih _ _ _ _ _ _ h
        refine ⟨?_, ?_, ?_⟩ <;>
          simp [e1, e2, e3, rFiles, gFiles, bFiles, hc, hr]
      · by_cases hg : c = 'g'
        · simp only [hg, beq_self_eq_true, if_true, show (('g' : Char) == 'r') = false by decide,
            Bool.false_eq_true, if_false] at h
          obtain ⟨e1, e2, e3⟩ := ih _ _ _ _ _ _ h
          refine ⟨?_, ?_, ?_⟩ <;>
            simp [e1, e2, e3, rFiles, gFiles, bFiles, hc, hg]
        · by_cases hb : c = 'b'
          · simp only [hb, beq_self_eq_true, if_true,
              show (('b' : Char) == 'r') = false by decide,
              show (('b' : Char) == 'g') = false by decide,
              Bool.false_eq_true, if_false] at h
            obtain ⟨e1, e2, e3⟩ := ih _ _ _ _ _ _ h
            refine ⟨?_, ?_, ?_⟩ <;>
              simp [e1, e2, e3, rFiles, gFiles, bFiles, hc, hb]
          · rw [if_neg (by simp [hr]), if_neg (by simp [hg]), if_neg (by simp [hb])] at h
            obtain ⟨e1, e2, e3⟩ := ih _ _ _ _ _ _ h
            refine ⟨?_, ?_, ?_⟩ <;>
              simp [e1, e2, e3, rFiles, gFiles, bFiles, hc, hr, hg, hb]

/-- Helper: the cartesian product of a list of lists has as many elements
as the product of the lists' lengths. -/
theorem prodL_length {α : Type} (ls : List (List α)) :
    (prodL ls).length = (ls.map List.length).prod := by
  induction ls with
  | nil => simp [prodL]
  | cons l ls ih =>
    simp only [prodL, List.map_cons, List.prod_cons]
    induction l with
    | nil => simp
    | cons x l ihl =>
      simp only [List.flatMap_cons, List.length_append, List.length_map, ihl, ih,
        List.length_cons]
      ring

/-- C6.  For every image group: the number of combinations generated by
`channel_combos` equals the product of the counts of red, green and blue
files (zero when a colour is absent, since the product of an empty factor
is empty); `get_uids` keys the first combination with the bare image id
and the combination at position `i + 1` (the `i`-th subsequent one, human
index `i + 2`) with `id-（i+2)`; and on the concrete group red =
{01-red.tif}, green = {01-green.tif}, blue = {01-blue.tif, 01-blue-2.tif}
exactly 2 combinations are produced, keyed `01` and `01-2`. -/
theorem channel_combos_count_and_uid_keys (k : Str) (files : List Str)
    (cs : List (List Str)) (h : channel_combos files = .ok cs) :
    cs.length = (rFiles files).length * ((gFiles files).length * (bFiles files).length) ∧
    (cs ≠ [] → (get_uids [(k, cs)]).headD ([], []) = (k, cs.headD [])) ∧
    (∀ i : Nat, i + 1 < cs.length →
      (get_uids [(k, cs)]).getD (i + 1) ([], []) =
        (k ++ '-' :: natStr (i + 2), cs.getD (i + 1) [])) ∧
    (channel_combos [fnBlue2, fnBlue, fnGreen, fnN] =
        .ok [[fnN, fnGreen, fnBlue2], [fnN, fnGreen, fnBlue]] ∧
      get_uids [(id01, [[fnN, fnGreen, fnBlue2], [fnN, fnGreen, fnBlue]])] =
        [(id01, [fnN, fnGreen, fnBlue2]), (['0', '1', '-', '2'], [fnN, fnGreen, fnBlue])]) := by
  refine ⟨?_, ?_, ?_, by rfl, by rfl⟩
  · cases hcf : colorsFold files ([], [], []) with
    | error f => simp [channel_combos, hcf] at h
    | ok acc =>
      obtain ⟨r, g, b⟩ := acc
      obtain ⟨e1, e2, e3⟩ := colorsFold_ok_eq files [] [] [] r g b hcf
      simp only [List.nil_append] at e1 e2 e3
      simp only [channel_combos, hcf, Except.ok.injEq] at h
      rw [← h, ← e1, ← e2, ← e3]
      simp [pySortRev, prodL_length]
  · rcases cs with _ | ⟨c0, _ | ⟨c1, cr⟩⟩
    · simp
    · intro _; simp [get_uids]
    · intro _; simp [get_uids]
  · rcases cs with _ | ⟨c0, _ | ⟨c1, cr⟩⟩
    · intro i hi; simp at hi
    · intro i hi; simp at hi
    · intro i hi
      simp only [List.length_cons] at hi
      simp only [get_uids, List.flatMap_cons, List.flatMap_nil, List.append_nil,
        List.length_cons]
      have h1 : ¬ (cr.length + 1 + 1 = 1) := by omega
      have h2 : 1 < cr.length + 1 + 1 := by omega
      simp only [h1, if_false, h2, if_true]
      simp [List.getD, List.getElem?_range (show i < cr.length + 1 by omega)]

/-- C6 witness: concrete instantiation on the single-combination group
red = {01-red.tif}, green = {01-green.tif}, blue = {01-blue.tif}. -/
theorem channel_combos_count_and_uid_keys_witness :
    channel_combos [fnN, fnGreen, fnBlue] = .ok [[fnN, fnGreen, fnBlue]] ∧
    ([[fnN, fnGreen, fnBlue]].length =
      (rFiles [fnN, fnGreen, fnBlue]).length *
        ((gFiles [fnN, fnGreen, fnBlue]).length * (bFiles [fnN, fnGreen, fnBlue]).length) ∧
    ([[fnN, fnGreen, fnBlue]] ≠ ([] : List (List Str)) →
      (get_uids [(id01, [[fnN, fnGreen, fnBlue]])]).headD ([], []) =
        (id01, [[fnN, fnGreen, fnBlue]].headD [])) ∧
    (∀ i : Nat, i + 1 < [[fnN, fnGreen, fnBlue]].length →
      (get_uids [(id01, [[fnN, fnGreen, fnBlue]])]).getD (i + 1) ([], []) =
        (id01 ++ '-' :: natStr (i + 2), [[fnN, fnGreen, fnBlue]].getD (i + 1) [])) ∧
    (channel_combos [fnBlue2, fnBlue, fnGreen, fnN] =
        .ok [[fnN, fnGreen, fnBlue2], [fnN, fnGreen, fnBlue]] ∧
      get_uids [(id01, [[fnN, fnGreen, fnBlue2], [fnN, fnGreen, fnBlue]])] =
        [(id01, [fnN, fnGreen, fnBlue2]), (['0', '1', '-', '2'], [fnN, fnGreen, fnBlue])])) :=
  ⟨by rfl, channel_combos_count_and_uid_keys id01 [fnN, fnGreen, fnBlue]
    [[fnN, fnGreen, fnBlue]] (by rfl)⟩

/-- Helper: a file whose classification letter is none of `r`, `g`, `b`
falls through every branch of the bucket loop, leaving the run of the
loop exactly as if the file were absent. -/
theorem colorsFold_skip (f : Str) (c : Char) (ys : List Str)
    (hcl : classify f = some c) (hr : c ≠ 'r') (hg : c ≠ 'g') (hb : c ≠ 'b') :
    ∀ (xs : List Str) (acc : List Str × List Str × List Str),
      colorsFold (xs ++ f :: ys) acc = colorsFold (xs ++ ys) acc := by
  intro xs
  induction xs with
  | nil =>
    intro acc
    obtain ⟨r, g, b⟩ := acc
    simp only [List.nil_append, colorsFold, hcl]
    rw [if_neg (by simp [hr]), if_neg (by simp [hg]), if_neg (by simp [hb])]
  | cons x xs ih =>
    intro acc
    obtain ⟨r, g, b⟩ := acc
    cases hx : classify x with
    | none => simp [colorsFold, hx]
    | some d =>
      simp only [List.cons_append, colorsFold, hx]
      split
      · exact ih _
      · split
        · exact ih _
        · split
          · exact ih _
          · exact ih _

/-- C10.  A filtered filename whose channel-token's first letter
(lower-cased) is none of `r`, `g`, `b` is silently dropped by the
combination generator: removing it from the input changes nothing (no
error, no diagnostic, identical combinations for the group's other
files), and it never appears inside any emitted combination. -/
theorem channel_combos_ignores_noncolor (xs ys : List Str) (f : Str) (c : Char)
    (hcl : classify f = some c) (hr : c ≠ 'r') (hg : c ≠ 'g') (hb : c ≠ 'b') :
    channel_combos (xs ++ f :: ys) = channel_combos (xs ++ ys) ∧
    (∀ cs, channel_combos (xs ++ f :: ys) = .ok cs → ∀ t ∈ cs, f ∉ t) := by
  constructor
  · simp [channel_combos, colorsFold_skip f c ys hcl hr hg hb xs ([], [], [])]
  · intro cs h t ht hf_in
    cases hcf : colorsFold (xs ++ f :: ys) ([], [], []) with
    | error e => simp [channel_combos, hcf] at h
    | ok acc =>
      obtain ⟨r, g, b⟩ := acc
      obtain ⟨e1, e2, e3⟩ := colorsFold_ok_eq (xs ++ f :: ys) [] [] [] r g b hcf
      simp only [List.nil_append] at e1 e2 e3
      simp only [channel_combos, hcf, Except.ok.injEq] at h
      rw [← h] at ht
      simp only [List.mem_map] at ht
      obtain ⟨t2, ht2, rfl⟩ := ht
      simp only [prodL, List.mem_flatMap, List.mem_map, List.flatMap_nil,
        List.mem_singleton] at ht2
      obtain ⟨xr, hxr, t3, ⟨xg, hxg, t4, ⟨xb, hxb, t5, ht5, rfl⟩, rfl⟩, rfl⟩ := ht2
      have hnr : classify xr = some 'r' := by
        have := List.mem_filter.mp (e1 ▸ hxr)
        simpa using this.2
      have hng : classify xg = some 'g' := by
        have := List.mem_filter.mp (e2 ▸ hxg)
        simpa using this.2
      have hnb : classify xb = some 'b' := by
        have := List.mem_filter.mp (e3 ▸ hxb)
        simpa using this.2
      subst ht5
      have hf3 : f = xr ∨ f = xg ∨ f = xb := by
        have := List.mem_mergeSort.mp hf_in
        simpa using this
      rcases hf3 with rfl | rfl | rfl
      · exact hr (Option.some.inj (hcl.symm.trans hnr))
      · exact hg (Option.some.inj (hcl.symm.trans hng))
      · exact hb (Option.some.inj (hcl.symm.trans hnb))

/-- C10 witness: concrete run with the unrelated file `01-yellow.tif`
inside a complete red/green/blue group. -/
theorem channel_combos_ignores_noncolor_witness :
    (classify fnYellow = some 'y' ∧
      ('y' : Char) ≠ 'r' ∧ ('y' : Char) ≠ 'g' ∧ ('y' : Char) ≠ 'b') ∧
    (channel_combos ([fnN] ++ fnYellow :: [fnGreen, fnBlue]) =
        channel_combos ([fnN] ++ [fnGreen, fnBlue]) ∧
      (∀ cs, channel_combos ([fnN] ++ fnYellow :: [fnGreen, fnBlue]) = .ok cs →
        ∀ t ∈ cs, fnYellow ∉ t)) :=
  ⟨⟨by decide, by decide, by decide, by decide⟩,
    channel_combos_ignores_noncolor [fnN] [fnGreen, fnBlue] fnYellow 'y'
      (by decide) (by decide) (by decide) (by decide)⟩

/-- Helper: strict string comparison is asymmetric. -/
theorem strLt_asymm : ∀ a b : Str, strLt a b = true → strLt b a = false := by
  intro a
  induction a with
  | nil => intro b h; cases b <;> simp_all [strLt]
  | cons x as ih =>
    intro b h
    cases b with
    | nil => simp [strLt] at h
    | cons y bs =>
      simp only [strLt] at h ⊢
      by_cases hxy : x = y
      · subst hxy
        simp only [beq_self_eq_true, if_true] at h ⊢
        exact ih bs h
      · rw [if_neg (by simp [hxy])] at h
        rw [if_neg (by simp [Ne.symm hxy])]
        simp only [decide_eq_true_eq] at h
        simp [not_lt_of_gt h]

/-- Helper: strict string comparison is transitive. -/
theorem strLt_trans : ∀ a b c : Str,
    strLt a b = true → strLt b c = true → strLt a c = true := by
  intro a
  induction a with
  | nil =>
    intro b c hab hbc
    cases b with
    | nil => simp [strLt] at hab
    | cons y bs => cases c with
      | nil => simp [strLt] at hbc
      | cons z cs => simp [strLt]
  | cons x as ih =>
    intro b c hab hbc
    cases b with
    | nil => simp [strLt] at hab
    | cons y bs =>
      cases c with
      | nil => simp [strLt] at hbc
      | cons z cs =>
        simp only [strLt] at hab hbc ⊢
        by_cases hxy : x = y <;> by_cases hyz : y = z
        · subst hxy; subst hyz
          simp only [beq_self_eq_true, if_true] at hab hbc ⊢
          exact ih bs cs hab hbc
        · subst hxy
          rw [if_neg (by simp [hyz])] at hbc
          rw [if_neg (by simp [hyz])]
          exact hbc
        · subst hyz
          rw [if_neg (by simp [hxy])] at hab
          rw [if_neg (by simp [hxy])]
          exact hab
        · rw [if_neg (by simp [hxy])] at hab
          rw [if_neg (by simp [hyz])] at hbc
          simp only [decide_eq_true_eq] at hab hbc
          by_cases hxz : x = z
          · exfalso; rw [hxz] at hab; exact lt_irrefl z (lt_trans hab hbc)
          · rw [if_neg (by simp [hxz])]
            simp [lt_trans hab hbc]

/-- Helper: strict string comparison is connex (total on distinct
strings). -/
theorem strLt_connex : ∀ a b : Str, a ≠ b → strLt a b = true ∨ strLt b a = true := by
  intro a
  induction a with
  | nil =>
    intro b hne
    cases b with
    | nil => exact absurd rfl hne
    | cons y bs => left; simp [strLt]
  | cons x as ih =>
    intro b hne
    cases b with
    | nil => right; simp [strLt]
    | cons y bs =>
      by_cases hxy : x = y
      · subst hxy
        have hne2 : as ≠ bs := fun h => hne (by rw [h])
        rcases ih bs hne2 with h | h
        · left; simp [strLt, h]
        · right; simp [strLt, h]
      · rcases lt_or_gt_of_ne hxy with h | h
        · left; simp only [strLt]; rw [if_neg (by simp [hxy])]; simp [h]
        · right; simp only [strLt]; rw [if_neg (by simp [Ne.symm hxy])]; simp [h]

/-- Helper: the sorting relation is transitive. -/
theorem strLe_trans : ∀ (a b c : Str), strLe a b → strLe b c → strLe a c := by
  intro a b c hab hbc
  simp only [strLe, Bool.not_eq_true', Bool.not_eq_eq_eq_not, Bool.not_true] at hab hbc ⊢
  by_contra hca
  rw [Bool.not_eq_false] at hca
  by_cases hab2 : a = b
  · subst hab2; rw [hca] at hbc; cases hbc
  · rcases strLt_connex a b hab2 with h | h
    · rw [strLt_trans c a b hca h] at hbc; cases hbc
    · rw [h] at hab; cases hab

/-- Helper: the sorting relation is total. -/
theorem strLe_total : ∀ (a b : Str), strLe a b || strLe b a := by
  intro a b
  simp only [strLe, Bool.or_eq_true, Bool.not_eq_true']
  by_cases h : strLt b a = true
  · right; exact strLt_asymm b a h
  · left; exact Bool.not_eq_true _ ▸ (Bool.eq_false_iff.mpr h)

/-- Helper: characterization of the boolean `startswith` test. -/
theorem isPfx_iff : ∀ (p s : Str), isPfx p s = true ↔ ∃ r, s = p ++ r := by
  intro p
  induction p with
  | nil => intro s; simp [isPfx]
  | cons a as ih =>
    intro s
    cases s with
    | nil => simp [isPfx]
    | cons b bs =>
      simp only [isPfx, Bool.and_eq_true, beq_iff_eq, ih, List.cons_append,
        List.cons.injEq]
      constructor
      · rintro ⟨rfl, r, rfl⟩; exact ⟨r, rfl, rfl⟩
      · rintro ⟨r, rfl, rfl⟩; exact ⟨rfl, r, rfl⟩

/-- Helper: characterization of the boolean substring test, models the
meaning of Python `p in s`. -/
theorem isSub_iff : ∀ (s p : Str), isSub p s = true ↔ ∃ u v, s = u ++ p ++ v := by
  intro s
  induction s with
  | nil =>
    intro p
    simp only [isSub, isPfx_iff]
    constructor
    · rintro ⟨r, hr⟩
      rcases List.append_eq_nil.mp hr.symm with ⟨h1, h2⟩
      exact ⟨[], [], by simp [h1, h2]⟩
    · rintro ⟨u, v, huv⟩
      rcases List.append_eq_nil.mp ((List.append_assoc u p v ▸ huv).symm) with ⟨h1, h2⟩
      rcases List.append_eq_nil.mp h2 with ⟨h3, h4⟩
      exact ⟨[], by simp [h3]⟩
  | cons c cs ih =>
    intro p
    simp only [isSub, Bool.or_eq_true, isPfx_iff, ih]
    constructor
    · rintro (⟨r, hr⟩ | ⟨u, v, huv⟩)
      · exact ⟨[], r, by simp [hr]⟩
      · exact ⟨c :: u, v, by simp [huv]⟩
    · rintro ⟨u, v, huv⟩
      cases u with
      | nil => exact Or.inl ⟨v, by simpa using huv⟩
      | cons u0 us =>
        simp only [List.cons_append, List.cons.injEq] at huv
        exact Or.inr ⟨us, v, huv.2⟩

/-- Helper: a prefix test stops no later than a failing element. -/
theorem takeWhile_len_le (p : Char → Bool) :
    ∀ (xs : Str) (y : Char) (zs : Str), p y = false →
      (List.takeWhile p (xs ++ y :: zs)).length ≤ xs.length := by
  intro xs
  induction xs with
  | nil => intro y zs hy; simp [List.takeWhile, hy]
  | cons x xs ih =>
    intro y zs hy
    cases hx : p x with
    | false => simp [List.takeWhile, hx]
    | true => simpa [List.takeWhile, hx] using ih y zs hy

/-- C9.  The brightfield filter of `cleanup_filenames` retains a name if
and only if it was in the input and does not contain the substring `-bf`
(first and third conjuncts tie the boolean test to honest substring
containment); containment of `-bf` anywhere coincides with containment
after the id token (the token before the first `-`), because every
occurrence of `-bf` begins with `-` (fourth conjunct); and the output is
in (code-point) lexicographically sorted order (second conjunct). -/
theorem bf_filter_spec (names : List Str) (f : Str) :
    (f ∈ bf_filter names ↔ f ∈ names ∧ isSub bfPat f = false) ∧
    (bf_filter names).Pairwise (fun a b => strLe a b = true) ∧
    (isSub bfPat f = true ↔ ∃ u v, f = u ++ bfPat ++ v) ∧
    (isSub bfPat f = true ↔
      isSub bfPat (f.drop ((f.takeWhile (fun c => !(c == '-'))).length)) = true) := by
  refine ⟨?_, ?_, isSub_iff f bfPat, ?_⟩
  · simp [bf_filter, pySort, List.mem_filter]
  · exact List.sorted_mergeSort strLe_trans strLe_total _
  · constructor
    · intro h
      obtain ⟨u, v, huv⟩ := (isSub_iff f bfPat).mp h
      set n := (f.takeWhile (fun c => !(c == '-'))).length with hn
      have hlen : n ≤ u.length := by
        rw [hn, huv]
        have : u ++ bfPat ++ v = u ++ '-' :: ('b' :: 'f' :: v) := by simp [bfPat]
        rw [this]
        exact takeWhile_len_le _ u '-' ('b' :: 'f' :: v) (by decide)
      apply (isSub_iff _ bfPat).mpr
      refine ⟨u.drop n, v, ?_⟩
      rw [huv, show u ++ bfPat ++ v = u ++ (bfPat ++ v) by simp,
        List.drop_append_of_le_length hlen]
      simp
    · intro h
      obtain ⟨u, v, huv⟩ := (isSub_iff _ bfPat).mp h
      apply (isSub_iff f bfPat).mpr
      refine ⟨f.take ((f.takeWhile (fun c => !(c == '-'))).length) ++ u, v, ?_⟩
      conv_lhs => rw [← List.take_append_drop ((f.takeWhile (fun c => !(c == '-'))).length) f]
      rw [huv]
      simp

/-- Helper: each combination contributes independently to the results
and the diagnostics of the preprocessing loop. -/
theorem preproc_foldl_eq (illum : Arr → Arr) (readImg : Str → Arr) :
    ∀ (uids : List (Str × List Str))
      (acc : List (Str × Arr3) × List (Str × List (Nat × Nat))),
      uids.foldl (preprocStep illum readImg) acc =
        (acc.1 ++ uids.flatMap (preprocOut illum readImg),
         acc.2 ++ uids.flatMap (preprocDiag illum readImg)) := by
  intro uids
  induction uids with
  | nil => intro acc; simp
  | cons e rest ih =>
    intro acc
    rw [List.foldl_cons, ih]
    cases hd : np_dstack (e.2.map (fun f => illum (readImg f))) with
    | some stacked =>
      simp [preprocStep, preprocOut, preprocDiag, hd]
    | none =>
      simp [preprocStep, preprocOut, preprocDiag, hd]

/-- Helper: the whole loop in per-combination normal form. -/
theorem preproc_imgs_eq (illum : Arr → Arr) (readImg : Str → Arr)
    (uids : List (Str × List Str)) :
    preproc_imgs illum readImg uids =
      (uids.flatMap (preprocOut illum readImg),
       uids.flatMap (preprocDiag illum readImg)) := by
  rw [preproc_imgs, preproc_foldl_eq]
  simp

/-- C7.  When the three corrected planes of one combination do not share
a shape, only that combination is dropped from the results — the result
mapping is exactly the one of the run without that combination, so every
other combination is still processed to completion — and one diagnostic
naming the combination key and the shape of each plane is emitted in
place, between the diagnostics of the earlier and the later
combinations.  The correction is any map that preserves the array shape
(which is how `gaussian_filter` and `cv2.subtract`/`cv2.divide`
behave). -/
theorem preproc_skips_only_mismatched_combo
    (illum : Arr → Arr) (readImg : Str → Arr)
    (hpres : ∀ a, shape (illum a) = shape a)
    (pre post : List (Str × List Str)) (uid : Str) (f1 f2 f3 : Str)
    (hmis : ¬ (shape (readImg f2) = shape (readImg f1) ∧
               shape (readImg f3) = shape (readImg f1))) :
    (preproc_imgs illum readImg (pre ++ (uid, [f1, f2, f3]) :: post)).1 =
      (preproc_imgs illum readImg (pre ++ post)).1 ∧
    (preproc_imgs illum readImg (pre ++ (uid, [f1, f2, f3]) :: post)).2 =
      (preproc_imgs illum readImg pre).2 ++
        [(uid, [shape (readImg f1), shape (readImg f2), shape (readImg f3)])] ++
        (preproc_imgs illum readImg post).2 := by
  have hd : np_dstack [illum (readImg f1), illum (readImg f2), illum (readImg f3)] = none := by
    simp only [List.map_cons, List.map_nil, np_dstack, List.all_cons, List.all_nil,
      Bool.and_true]
    rw [if_neg]
    intro hcontra
    simp only [Bool.and_eq_true, decide_eq_true_eq, hpres] at hcontra
    exact hmis ⟨hcontra.1, hcontra.2⟩
  constructor
  · simp [preproc_imgs_eq, List.flatMap_append, List.flatMap_cons, preprocOut, hd]
  · simp [preproc_imgs_eq, List.flatMap_append, List.flatMap_cons, preprocDiag, hd, hpres]

/-- C7 witness: a run with the well-shaped combination `01` and the
mismatched combination `02` (planes 10×10, 10×10, 12×10): `02` is
skipped with a diagnostic carrying all three shapes, `01` survives. -/
theorem preproc_skips_only_mismatched_combo_witness :
    (∀ a : Arr, shape ((fun a => a) a) = shape a) ∧
    (¬ (shape ((fun f => if f = ['z'] then Arr.mk 12 10 [] else Arr.mk 10 10 []) ['x']) =
          shape ((fun f => if f = ['z'] then Arr.mk 12 10 [] else Arr.mk 10 10 []) ['x']) ∧
        shape ((fun f => if f = ['z'] then Arr.mk 12 10 [] else Arr.mk 10 10 []) ['z']) =
          shape ((fun f => if f = ['z'] then Arr.mk 12 10 [] else Arr.mk 10 10 []) ['x']))) ∧
    ((preproc_imgs (fun a => a)
        (fun f => if f = ['z'] then Arr.mk 12 10 [] else Arr.mk 10 10 [])
        ([(['0', '1'], [['x'], ['x'], ['x']])] ++ (['0', '2'], [['x'], ['x'], ['z']]) :: [])).1 =
      (preproc_imgs (fun a => a)
        (fun f => if f = ['z'] then Arr.mk 12 10 [] else Arr.mk 10 10 [])
        ([(['0', '1'], [['x'], ['x'], ['x']])] ++ [])).1 ∧
     (preproc_imgs (fun a => a)
        (fun f => if f = ['z'] then Arr.mk 12 10 [] else Arr.mk 10 10 [])
        ([(['0', '1'], [['x'], ['x'], ['x']])] ++ (['0', '2'], [['x'], ['x'], ['z']]) :: [])).2 =
      (preproc_imgs (fun a => a)
        (fun f => if f = ['z'] then Arr.mk 12 10 [] else Arr.mk 10 10 [])
        [(['0', '1'], [['x'], ['x'], ['x']])]).2 ++
        [(['0', '2'],
          [shape ((fun f => if f = ['z'] then Arr.mk 12 10 [] else Arr.mk 10 10 []) ['x']),
           shape ((fun f => if f = ['z'] then Arr.mk 12 10 [] else Arr.mk 10 10 []) ['x']),
           shape ((fun f => if f = ['z'] then Arr.mk 12 10 [] else Arr.mk 10 10 []) ['z'])])] ++
        (preproc_imgs (fun a => a)
          (fun f => if f = ['z'] then Arr.mk 12 10 [] else Arr.mk 10 10 [])
          ([] : List (Str × List Str))).2) :=
  ⟨fun a => rfl, by decide,
    preproc_skips_only_mismatched_combo (fun a => a)
      (fun f => if f = ['z'] then Arr.mk 12 10 [] else Arr.mk 10 10 [])
      (fun a => rfl)
      [(['0', '1'], [['x'], ['x'], ['x']])] [] ['0', '2'] ['x'] ['x'] ['z']
      (by decide)⟩

/-- Helper: decimal digits are not whitespace. -/
theorem digit_not_ws (c : Char) (h : c.isDigit = true) : c.isWhitespace = false := by
  by_contra h2
  rw [Bool.not_eq_false] at h2
  simp only [Char.isWhitespace, Bool.or_eq_true, decide_eq_true_eq] at h2
  rcases h2 with ((h2 | h2) | h2) | h2 <;> (subst h2; exact absurd h (by decide))

/-- Helper: decimal digits are not the separator `-`. -/
theorem digit_ne_dash (c : Char) (h : c.isDigit = true) : c ≠ '-' := by
  intro h2; subst h2; exact absurd h (by decide)

/-- Helper: decimal digits are not the extension dot. -/
theorem digit_ne_dot (c : Char) (h : c.isDigit = true) : c ≠ '.' := by
  intro h2; subst h2; exact absurd h (by decide)

/-- Helper: a non-empty whitespace-free string is a single whitespace
token. -/
theorem wsTokens_of_noWs :
    ∀ s : Str, s ≠ [] → (∀ c ∈ s, c.isWhitespace = false) → wsTokens s = [s] := by
  intro s
  induction s with
  | nil => intro h; exact absurd rfl h
  | cons c cs ih =>
    intro _ hno
    have hc : c.isWhitespace = false := hno c (by simp)
    cases cs with
    | nil => simp [wsTokens, hc]
    | cons d rest =>
      have hd : d.isWhitespace = false := hno d (by simp)
      have hrec : wsTokens (d :: rest) = [d :: rest] :=
        ih (by simp) (fun x hx => hno x (by simp [hx]))
      simp [wsTokens, hc, hd, hrec]

/-- Helper: splitting never produces the empty list of parts. -/
theorem splitChar_ne_nil (c : Char) : ∀ s : Str, splitChar c s ≠ [] := by
  intro s
  induction s with
  | nil => simp [splitChar]
  | cons a as ih =>
    simp only [splitChar]
    cases h : splitChar c as with
    | nil => exact absurd h ih
    | cons p ps =>
      by_cases hac : a == c <;> simp [hac]

/-- Helper: a string free of the separator is one part. -/
theorem splitChar_of_not_mem (c : Char) :
    ∀ s : Str, (∀ a ∈ s, a ≠ c) → splitChar c s = [s] := by
  intro s
  induction s with
  | nil => intro _; rfl
  | cons a as ih =>
    intro hno
    have hrec : splitChar c as = [as] := ih (fun x hx => hno x (by simp [hx]))
    have hac : (a == c) = false := by simp [hno a (by simp)]
    simp [splitChar, hrec, hac]

/-- Helper: splitting a string that starts with a separator-free block
followed by the separator peels off that block as the first part. -/
theorem splitChar_append (c : Char) :
    ∀ (x y : Str), (∀ a ∈ x, a ≠ c) →
      splitChar c (x ++ c :: y) = x :: splitChar c y := by
  intro x
  induction x with
  | nil =>
    intro y _
    simp only [List.nil_append, splitChar]
    cases h : splitChar c y with
    | nil => exact absurd h (splitChar_ne_nil c y)
    | cons p ps => simp
  | cons a x2 ih =>
    intro y hno
    have hrec := ih y (fun z hz => hno z (by simp [hz]))
    have hac : (a == c) = false := by simp [hno a (by simp)]
    simp only [List.cons_append, splitChar, List.append_eq, hrec, hac, Bool.false_eq_true,
      if_false]

/-- Helper: a take-while over an all-true block stopped by a failing
element returns exactly the block. -/
theorem takeWhile_all_append (p : Char → Bool) :
    ∀ (xs : Str) (y : Char) (zs : Str), (∀ a ∈ xs, p a = true) → p y = false →
      List.takeWhile p (xs ++ y :: zs) = xs := by
  intro xs
  induction xs with
  | nil => intro y zs _ hy; simp [List.takeWhile, hy]
  | cons x xs ih =>
    intro y zs hall hy
    have hx : p x = true := hall x (by simp)
    simp only [List.cons_append, List.takeWhile, hx]
    simpa using ih y zs (fun a ha => hall a (by simp [ha])) hy

/-- Helper: the trailing digit run of `a ++ k :: ds` with `k` a non-digit
and `ds` all digits is exactly `ds`. -/
theorem trailingDigits_eq_of (a : Str) (k : Char) (ds : Str)
    (hds : ∀ c ∈ ds, c.isDigit = true) (hk : k.isDigit = false) :
    trailingDigits (a ++ k :: ds) = ds := by
  rw [trailingDigits]
  rw [show (a ++ k :: ds).reverse = ds.reverse ++ k :: a.reverse by simp]
  rw [takeWhile_all_append Char.isDigit ds.reverse k a.reverse
    (fun c hc => hds c (List.mem_reverse.mp hc)) hk]
  simp

/-- Helper: a string ending in a non-digit has no trailing digit run. -/
theorem trailingDigits_nil_of (s : Str) (c : Char)
    (hc : s.getLast? = some c) (hd : c.isDigit = false) :
    trailingDigits s = [] := by
  rw [trailingDigits]
  cases h : s.reverse with
  | nil => simp [h]
  | cons a as =>
    have : a = c := by
      have := List.head?_reverse s
      rw [h] at this
      simp only [List.head?] at this
      exact Option.some.inj (this.trans hc)
    subst this
    simp [h, List.takeWhile, hd]

/-- Helper: every string starts with itself. -/
theorem isPfx_refl (p : Str) : isPfx p p = true :=
  (isPfx_iff p p).mpr ⟨[], by simp⟩

/-- Helper: splitting the empty string gives a single empty part,
whatever the fuel. -/
theorem pySplitF_nil (fuel : Nat) (sep : Str) (hsep : sep ≠ []) :
    pySplitF fuel sep [] = [[]] := by
  cases fuel with
  | zero => rfl
  | succ f =>
    have h1 : sep.isEmpty = false := by simp [List.isEmpty_iff, hsep]
    have h2 : isPfx sep [] = false := by
      cases sep with
      | nil => exact absurd rfl hsep
      | cons a as => rfl
    simp [pySplitF, h1, h2]

/-- Helper: the last element reported by `getLast?` is a member. -/
theorem last_mem (A : Str) (c : Char) (h : A.getLast? = some c) : c ∈ A := by
  have h1 : A.reverse.head? = some c := by rw [List.head?_reverse]; exact h
  have h2 : c ∈ A.reverse := by
    cases hrev : A.reverse with
    | nil => rw [hrev] at h1; cases h1
    | cons x xs =>
      rw [hrev] at h1
      simp only [List.head?] at h1
      simp [Option.some.inj h1]
  exact List.mem_reverse.mp h2

/-- Helper (core of the trailing-number rewrite): Python's
`endnum.join(sp.split(endnum)[:-1])` on a string of the form
`A ++ endnum`, where `endnum` is a run of digits and `A` ends in a
non-digit, recovers exactly `A`.  Stated over the fuelled splitter with
any sufficient fuel; the last part of the split is always empty because
the separator closes the string. -/
theorem strip_split (sep : Str) (hsep : sep ≠ [])
    (hdig : ∀ c ∈ sep, c.isDigit = true) :
    ∀ (fuel : Nat) (A : Str), A.length + sep.length < fuel → A ≠ [] →
      (∀ c, A.getLast? = some c → c.isDigit = false) →
      pyJoin sep ((pySplitF fuel sep (A ++ sep)).dropLast) = A ∧
      (pySplitF fuel sep (A ++ sep)).getLast? = some [] := by
  intro fuel
  induction fuel with
  | zero => intro A hlt _ _; exact absurd hlt (by omega)
  | succ fuel ih =>
    intro A hlt hA hlast
    have hsepEmpty : sep.isEmpty = false := by simp [List.isEmpty_iff, hsep]
    have hseplen : 1 ≤ sep.length := List.length_pos.mpr hsep
    by_cases hpfx : isPfx sep (A ++ sep) = true
    · obtain ⟨r, hr⟩ := (isPfx_iff sep (A ++ sep)).mp hpfx
      by_cases hle : sep.length ≤ A.length
      · have htake : A.take sep.length = sep := by
          have h1 : (A ++ sep).take sep.length = A.take sep.length :=
            List.take_append_of_le_length hle
          have h2 : (A ++ sep).take sep.length = sep := by
            rw [hr]; exact List.take_left sep r
          rw [← h1, h2]
        have hAeq : A = sep ++ A.drop sep.length := by
          conv_lhs => rw [← List.take_append_drop sep.length A]
          rw [htake]
        have hA2len : (A.drop sep.length).length = A.length - sep.length :=
          List.length_drop sep.length A
        have hA2ne : A.drop sep.length ≠ [] := by
          intro h0
          have hAsep : A = sep := by rw [hAeq, h0, List.append_nil]
          cases hg : A.getLast? with
          | none => exact absurd (List.getLast?_eq_none_iff.mp hg) hA
          | some c =>
            have hcf : c.isDigit = false := hlast c hg
            have hcmem : c ∈ A := last_mem A c hg
            rw [hAsep] at hcmem
            have hct := hdig c hcmem
            rw [hcf] at hct
            cases hct
        have hlast2 : ∀ c, (A.drop sep.length).getLast? = some c → c.isDigit = false := by
          intro c hc
          apply hlast
          rw [hAeq, List.getLast?_append, hc]
          rfl
        have harith : (A.drop sep.length).length + sep.length < fuel := by
          rw [hA2len]; omega
        obtain ⟨ih1, ih2⟩ := ih (A.drop sep.length) harith hA2ne hlast2
        have hdropstep : (A ++ sep).drop sep.length = A.drop sep.length ++ sep :=
          List.drop_append_of_le_length hle
        have hstep : pySplitF (fuel + 1) sep (A ++ sep) =
            [] :: pySplitF fuel sep (A.drop sep.length ++ sep) := by
          simp only [pySplitF, hsepEmpty, Bool.false_eq_true, if_false, hpfx, if_true,
            hdropstep]
        rw [hstep]
        have hL2ne : pySplitF fuel sep (A.drop sep.length ++ sep) ≠ [] := by
          intro h0; rw [h0] at ih2; cases ih2
        constructor
        · rw [List.dropLast_cons_of_ne_nil hL2ne]
          cases hD : (pySplitF fuel sep (A.drop sep.length ++ sep)).dropLast with
          | nil =>
            rw [hD] at ih1
            simp only [pyJoin] at ih1
            exact absurd ih1.symm hA2ne
          | cons z zs =>
            rw [hD] at ih1
            simp only [pyJoin, List.nil_append]
            rw [ih1, ← hAeq]
        · cases hL2 : pySplitF fuel sep (A.drop sep.length ++ sep) with
          | nil => exact absurd hL2 hL2ne
          | cons p ps =>
            rw [hL2] at ih2
            cases ps with
            | nil =>
              simp only [List.getLast?_cons_cons]
              exact ih2
            | cons q qs =>
              simp only [List.getLast?_cons_cons]
              simpa using ih2
      · push_neg at hle
        set n := A.length with hn
        have hAtake : A = sep.take n := by
          have h1 : (A ++ sep).take n = A := by rw [hn]; exact List.take_left A sep
          have h2 : (A ++ sep).take n = sep.take n := by
            rw [hr]; exact List.take_append_of_le_length (le_of_lt hle)
          exact h1.symm.trans h2
        cases hg : A.getLast? with
        | none => exact absurd (List.getLast?_eq_none_iff.mp hg) hA
        | some c =>
          have hcf : c.isDigit = false := hlast c hg
          have hcmem : c ∈ A := last_mem A c hg
          rw [hAtake] at hcmem
          have hct := hdig c (List.mem_of_mem_take hcmem)
          rw [hcf] at hct
          cases hct
    · cases A with
      | nil => exact absurd rfl hA
      | cons a A2 =>
        have hpfx2 : isPfx sep (a :: (A2 ++ sep)) = false := by
          rw [← List.cons_append]; exact Bool.eq_false_iff.mpr hpfx
        have hstep : pySplitF (fuel + 1) sep ((a :: A2) ++ sep) =
            (match pySplitF fuel sep (A2 ++ sep) with
             | [] => [[a]]
             | p :: ps => (a :: p) :: ps) := by
          conv_lhs => rw [List.cons_append]
          simp only [pySplitF, hsepEmpty, Bool.false_eq_true, if_false, hpfx2]
        by_cases hA2 : A2 = []
        · subst hA2
          have hsepcase : pySplitF fuel sep sep = [[], []] := by
            cases fuel with
            | zero =>
              exfalso
              simp only [List.length_cons, List.length_nil] at hlt
              omega
            | succ f2 =>
              simp only [pySplitF, hsepEmpty, Bool.false_eq_true, if_false, isPfx_refl,
                if_true, List.drop_length, pySplitF_nil f2 sep hsep]
          rw [hstep, List.nil_append, hsepcase]
          exact ⟨by simp [pyJoin], by simp⟩
        · have hlast2 : ∀ c, A2.getLast? = some c → c.isDigit = false := by
            intro c hc
            apply hlast
            cases A2 with
            | nil => exact absurd rfl hA2
            | cons x xs => rw [List.getLast?_cons_cons]; exact hc
          have harith : A2.length + sep.length < fuel := by
            simp only [List.length_cons] at hlt; omega
          obtain ⟨ih1, ih2⟩ := ih A2 harith hA2 hlast2
          rw [hstep]
          cases hL : pySplitF fuel sep (A2 ++ sep) with
          | nil => rw [hL] at ih2; cases ih2
          | cons p ps =>
            rw [hL] at ih1 ih2
            cases ps with
            | nil =>
              simp only [List.getLast?_cons, List.getLast?_nil] at ih2
              simp only [List.dropLast_single, pyJoin] at ih1
              exact absurd ih1.symm hA2
            | cons q qs =>
              constructor
              · rw [List.dropLast_cons₂]
                rw [List.dropLast_cons₂] at ih1
                cases hD : (q :: qs).dropLast with
                | nil =>
                  rw [hD] at ih1
                  simp only [pyJoin] at ih1
                  simp [pyJoin, ih1]
                | cons z zs =>
                  rw [hD] at ih1
                  simp only [pyJoin] at ih1 ⊢
                  rw [← ih1]
                  simp
              · simp only [List.getLast?_cons_cons]
                simpa using ih2

/-- C8.  The filename normalization transform (whitespace folding
followed by `format_trailing_nums`) returns every canonical filename
`<id>-<channel-token>[-<scan>].<ext>` unchanged, so normalization is
idempotent on canonical names. -/
theorem normalize_idempotent_on_canonical (s : Str) (h : Canonical s) :
    normalizeName s = some s := by
  obtain ⟨idStr, tok, scan, ext, hparts, hs⟩ := h
  obtain ⟨hidne, hiddig, htokne, htokok, hscan, hextne, hextok⟩ := hparts
  rw [List.all_eq_true] at hiddig htokok hextok
  have htok3 : ∀ c ∈ tok, c ≠ '-' ∧ c ≠ '.' ∧ c.isWhitespace = false := by
    intro c hc
    have h3 := htokok c hc
    simp only [Bool.and_eq_true, Bool.not_eq_true'] at h3
    exact ⟨by simpa using h3.1.1, by simpa using h3.1.2, h3.2⟩
  have hext2 : ∀ c ∈ ext, c ≠ '.' ∧ c.isWhitespace = false := by
    intro c hc
    have h3 := hextok c hc
    simp only [Bool.and_eq_true, Bool.not_eq_true'] at h3
    exact ⟨by simpa using h3.1, h3.2⟩
  have hid_dig : ∀ c ∈ idStr, c.isDigit = true := hiddig
  have hsne : s ≠ [] := by
    rw [hs]
    cases idStr with
    | nil => exact absurd rfl hidne
    | cons a as => simp
  have hmem_cases : ∀ c ∈ s,
      c ∈ idStr ∨ c = '-' ∨ c ∈ tok ∨ c ∈ scanPart scan ∨ c = '.' ∨ c ∈ ext := by
    intro c hc
    rw [hs] at hc
    simp only [List.mem_append, List.mem_cons] at hc
    tauto
  have hnows : ∀ c ∈ s, c.isWhitespace = false := by
    intro c hc
    rcases hmem_cases c hc with hc2 | rfl | hc2 | hc2 | rfl | hc2
    · exact digit_not_ws c (hid_dig c hc2)
    · decide
    · exact (htok3 c hc2).2.2
    · cases scan with
      | none => cases hc2
      | some n =>
        obtain ⟨_, hndig⟩ := hscan
        rw [List.all_eq_true] at hndig
        simp only [scanPart, List.mem_cons] at hc2
        rcases hc2 with rfl | hc2
        · decide
        · exact digit_not_ws c (hndig c hc2)
    · decide
    · exact (hext2 c hc2).2
  have hws : wsTokens s = [s] := wsTokens_of_noWs s hsne hnows
  have hbase_nodot : ∀ a ∈ idStr ++ '-' :: (tok ++ scanPart scan), a ≠ '.' := by
    intro a ha
    have ha2 : a ∈ idStr ∨ a = '-' ∨ a ∈ tok ∨ a ∈ scanPart scan := by
      simp only [List.mem_append, List.mem_cons] at ha
      tauto
    rcases ha2 with ha2 | rfl | ha2 | ha2
    · exact digit_ne_dot a (hid_dig a ha2)
    · decide
    · exact (htok3 a ha2).2.1
    · cases scan with
      | none => cases ha2
      | some n =>
        obtain ⟨_, hndig⟩ := hscan
        rw [List.all_eq_true] at hndig
        simp only [scanPart, List.mem_cons] at ha2
        rcases ha2 with rfl | ha2
        · decide
        · exact digit_ne_dot a (hndig a ha2)
  have hext_nodot : ∀ a ∈ ext, a ≠ '.' := fun a ha => (hext2 a ha).1
  have hsplitdot : splitChar '.' s = [idStr ++ '-' :: (tok ++ scanPart scan), ext] := by
    rw [hs]
    rw [show idStr ++ '-' :: (tok ++ scanPart scan ++ '.' :: ext) =
        (idStr ++ '-' :: (tok ++ scanPart scan)) ++ '.' :: ext by simp]
    rw [splitChar_append '.' (idStr ++ '-' :: (tok ++ scanPart scan)) ext hbase_nodot]
    rw [splitChar_of_not_mem '.' ext hext_nodot]
  have hid_nodash : ∀ a ∈ idStr, a ≠ '-' := fun a ha => digit_ne_dash a (hid_dig a ha)
  have hpfx_eval : (splitChar '-' s).headD [] = idStr := by
    rw [hs, splitChar_append '-' idStr (tok ++ scanPart scan ++ '.' :: ext) hid_nodash]
    rfl
  have hpfx_dig : pyIsDigit idStr = true := by
    have h1 : idStr.isEmpty = false := by
      cases hI : idStr with
      | nil => exact absurd hI hidne
      | cons a as => rfl
    simp only [pyIsDigit, h1, Bool.not_false, Bool.true_and, List.all_eq_true]
    exact hid_dig
  rw [normalizeName, hws, show pyJoin ['-'] [s] = s from rfl]
  cases scan with
  | none =>
    obtain ⟨tl, htl⟩ : ∃ c, tok.getLast? = some c := by
      cases hg : tok.getLast? with
      | none => exact absurd (List.getLast?_eq_none_iff.mp hg) htokne
      | some c => exact ⟨c, rfl⟩
    have htl_nd : tl.isDigit = false := by
      have h4 : (tok.getLast?.all fun c => !c.isDigit) = true := hscan
      rw [htl] at h4
      simpa using h4
    have hlastbase : (idStr ++ '-' :: (tok ++ scanPart Option.none)).getLast? = some tl := by
      simp only [scanPart, List.append_nil]
      rw [List.getLast?_append]
      cases tok with
      | nil => exact absurd rfl htokne
      | cons t ts =>
        rw [List.getLast?_cons_cons, htl]
        rfl
    have htd : trailingDigits (idStr ++ '-' :: (tok ++ scanPart Option.none)) = [] :=
      trailingDigits_nil_of _ tl hlastbase htl_nd
    rw [format_trailing_nums]
    simp only [hsplitdot, List.dropLast_cons₂, List.dropLast_single, pyJoin, htd,
      List.isEmpty_nil, if_true]
    simp only [hpfx_eval, hpfx_dig, if_true]
  | some n =>
    obtain ⟨hnne, hndig0⟩ := hscan
    have hndig : ∀ c ∈ n, c.isDigit = true := by rw [← List.all_eq_true]; exact hndig0
    have htd : trailingDigits (idStr ++ '-' :: (tok ++ scanPart (some n))) = n := by
      rw [show idStr ++ '-' :: (tok ++ scanPart (some n)) =
          (idStr ++ '-' :: tok) ++ '-' :: n by simp [scanPart]]
      exact trailingDigits_eq_of (idStr ++ '-' :: tok) '-' n hndig (by decide)
    have hA_ne : (idStr ++ '-' :: tok) ++ ['-'] ≠ ([] : Str) := by simp
    have hA_last : ∀ c, ((idStr ++ '-' :: tok) ++ ['-']).getLast? = some c →
        c.isDigit = false := by
      intro c hc
      rw [List.getLast?_concat] at hc
      rw [← Option.some.inj hc]
      decide
    have hnempty : n.isEmpty = false := by simp [List.isEmpty_iff, hnne]
    rw [format_trailing_nums]
    have hgld : (([idStr ++ '-' :: (tok ++ scanPart (some n)), ext] : List Str).getLastD [])
        = ext := rfl
    simp only [hsplitdot, List.dropLast_cons₂, List.dropLast_single, pyJoin, htd, hnempty,
      Bool.false_eq_true, if_false, hgld]
    have hbase_eq : idStr ++ '-' :: (tok ++ scanPart (some n)) =
        ((idStr ++ '-' :: tok) ++ ['-']) ++ n := by simp [scanPart]
    rw [hbase_eq, pySplit]
    obtain ⟨hjoin, hlastpart⟩ := strip_split n hnne hndig
      ((((idStr ++ '-' :: tok) ++ ['-']) ++ n).length + 1)
      ((idStr ++ '-' :: tok) ++ ['-'])
      (by simp only [List.length_append]; omega)
      hA_ne hA_last
    rw [hjoin, List.getLast?_concat]
    simp only [beq_self_eq_true, if_true, List.dropLast_concat]
    have hnew_eq : (idStr ++ '-' :: tok) ++ '-' :: (n ++ '.' :: ext) = s := by
      rw [hs]; simp [scanPart]
    simp only [List.append_assoc, List.cons_append, List.nil_append] at hnew_eq ⊢
    rw [hnew_eq]
    simp only [hpfx_eval, hpfx_dig, if_true]

/-- C8 witness: the canonical name `01-red-2.tif` is returned unchanged
by the normalization transform. -/
theorem normalize_idempotent_on_canonical_witness :
    Canonical fnRed2 ∧ normalizeName fnRed2 = some fnRed2 := by
  have hc : Canonical fnRed2 :=
    ⟨['0', '1'], ['r', 'e', 'd'], some ['2'], ['t', 'i', 'f'],
      ⟨by decide, by decide, by decide, by decide, ⟨by decide, by decide⟩,
        by decide, by decide⟩,
      by decide⟩
  exact ⟨hc, normalize_idempotent_on_canonical fnRed2 hc⟩

end ChannelMerge
